import Mathlib

/-!
# Verification of the s3grep search pipeline

A shallow embedding of the s3grep core (src/lib.rs, src/main.rs): the
line-match predicate, the streaming object scanner with binary detection,
the paginated object enumerator, the per-item dispatch of the scheduler
loop, the configuration handling, and the match highlighter.  Byte streams
are modelled as lists of natural numbers (`List Nat`, one entry per byte,
values < 256), decoded text as `List Char` (one entry per Unicode scalar
value), and the chunked delivery of `AsyncBufRead::fill_buf` as a list of
chunks.  All definitions are executable so that concrete runs evaluate by
`decide`.
-/

namespace S3Grep

/-! ## UTF-8 lossy decoding (`String::from_utf8_lossy`)

Rust decodes each line buffer with `String::from_utf8_lossy`, replacing
each maximal invalid subpart with U+FFFD.  `utf8Step` consumes one scalar
value (or one replacement) from the head of a byte list and reports how
many bytes it consumed (always at least 1). -/

/-- A UTF-8 continuation byte: `0x80 ≤ b ≤ 0xBF`. -/
def contByte (b : Nat) : Bool := 0x80 ≤ b && b ≤ 0xBF

/-- The replacement character U+FFFD emitted for invalid subparts. -/
def repChar : Char := Char.ofNat 0xFFFD

/-- Decode one scalar value (or one replacement) from `b :: rest`:
returns the character and the number of bytes consumed (≥ 1).  Follows
the maximal-subpart policy of `String::from_utf8_lossy`: an incomplete or
broken sequence consumes its longest valid prefix and yields U+FFFD. -/
def utf8Step (b : Nat) (rest : List Nat) : Char × Nat :=
  if b < 0x80 then (Char.ofNat b, 1)
  else if b < 0xC2 then (repChar, 1)
  else if b ≤ 0xDF then
    match rest with
    | c :: _ =>
      if contByte c then (Char.ofNat ((b - 0xC0) * 64 + (c - 0x80)), 2)
      else (repChar, 1)
    | [] => (repChar, 1)
  else if b ≤ 0xEF then
    let lo := if b = 0xE0 then 0xA0 else 0x80
    let hi := if b = 0xED then 0x9F else 0xBF
    match rest with
    | c :: rest2 =>
      if lo ≤ c && c ≤ hi then
        match rest2 with
        | d :: _ =>
          if contByte d then
            (Char.ofNat ((b - 0xE0) * 4096 + (c - 0x80) * 64 + (d - 0x80)), 3)
          else (repChar, 2)
        | [] => (repChar, 2)
      else (repChar, 1)
    | [] => (repChar, 1)
  else if b ≤ 0xF4 then
    let lo := if b = 0xF0 then 0x90 else 0x80
    let hi := if b = 0xF4 then 0x8F else 0xBF
    match rest with
    | c :: rest2 =>
      if lo ≤ c && c ≤ hi then
        match rest2 with
        | d :: rest3 =>
          if contByte d then
            match rest3 with
            | e :: _ =>
              if contByte e then
                (Char.ofNat ((b - 0xF0) * 262144 + (c - 0x80) * 4096 +
                  (d - 0x80) * 64 + (e - 0x80)), 4)
              else (repChar, 3)
            | [] => (repChar, 3)
          else (repChar, 2)
        | [] => (repChar, 2)
      else (repChar, 1)
    | [] => (repChar, 1)
  else (repChar, 1)

/-- Fuelled decoding loop; each step consumes at least one byte, so fuel
equal to the length of the list suffices. -/
def utf8DecodeLossyAux : Nat → List Nat → List Char
  | 0, _ => []
  | _ + 1, [] => []
  | fuel + 1, b :: rest =>
    let s := utf8Step b rest
    s.1 :: utf8DecodeLossyAux fuel (rest.drop (s.2 - 1))

/-- `String::from_utf8_lossy` on a byte buffer. -/
def utf8DecodeLossy (l : List Nat) : List Char := utf8DecodeLossyAux l.length l

/-! ## Lowercasing (`str::to_lowercase`)

The spec describes the predicate as a simple codepoint lowercase.  We
embed Rust's per-codepoint lowercase table restricted to the codepoints
exercised in this development: the ASCII letters, plus the Latin capital
letters A-with-stroke (U+023A) and T-with-stroke (U+023E), whose lowercase
forms (U+2C65, U+2C66) occupy one more UTF-8 byte than their uppercase
forms — the property the highlighter's byte arithmetic trips over.  On all
other codepoints appearing here the Rust table is the identity. -/

/-- Rust's per-codepoint lowercase mapping, restricted as described. -/
def charLower (c : Char) : Char :=
  if 'A' ≤ c && c ≤ 'Z' then Char.ofNat (c.toNat + 32)
  else if c.toNat = 0x23A then Char.ofNat 0x2C65
  else if c.toNat = 0x23E then Char.ofNat 0x2C66
  else c

/-- `str::to_lowercase`, codepoint-wise. -/
def strLower (s : List Char) : List Char := s.map charLower

/-! ## Substring containment (`str::contains`) -/

/-- `hay.contains(pat)` for strings: `pat` occurs contiguously in `hay`.
Rust searches byte-wise, but on valid UTF-8 an occurrence always sits on
character boundaries, so character-level search is equivalent. -/
def strContains : List Char → List Char → Bool
  | [], pat => pat.isPrefixOf []
  | c :: t, pat => pat.isPrefixOf (c :: t) || strContains t pat

/-- src/lib.rs `line_matches`: case-sensitive containment, or containment
after lowercasing both line and pattern. -/
def line_matches (line pattern : List Char) (case_sensitive : Bool) : Bool :=
  if case_sensitive then strContains line pattern
  else strContains (strLower line) (strLower pattern)

/-! ## The streaming object scanner (src/main.rs `search_object`)

The Rust loop repeats `fill_buf` to obtain a chunk, flags `is_binary` if
the chunk contains a NUL byte, then walks the chunk byte by byte: a
line-feed (10) closes the accumulated `line_buffer`, bumps `line_num`,
decodes the buffer and evaluates `line_matches`; on a match with
`is_binary` set, the byte loop `break`s (the remainder of the chunk is
consumed but never examined, and — since `line_buffer.clear()` sits after
the `break` — the buffer keeps the matched line's bytes).  At stream end a
non-empty buffer is flushed as a final line whose match is recorded
unconditionally.  Finally, if `is_binary` and at least one match was
collected, the function prints the binary notice and returns an empty
vector.  `trace` instruments the states with the `(line_num, line)` pairs
that were evaluated, in order; it mirrors what the code hands to
`line_matches`. -/

structure ScanSt where
  isBinary : Bool
  buf : List Nat
  lineNum : Nat
  matchList : List (Nat × List Char)
  trace : List (Nat × List Char)
deriving Repr, DecidableEq

/-- The byte loop of `search_object` over one chunk (after the chunk's
NUL check has already updated `isBinary`; the flag is not re-read from
fresh NULs inside the loop, faithfully to the source, which checks the
chunk once before the loop). -/
def scanBytes (pat : List Char) (cs : Bool) : ScanSt → List Nat → ScanSt
  | st, [] => st
  | st, b :: rest =>
    if b = 10 then
      let n := st.lineNum + 1
      let line := utf8DecodeLossy st.buf
      if line_matches line pat cs then
        if st.isBinary then
          { st with lineNum := n, trace := st.trace ++ [(n, line)] }
        else
          scanBytes pat cs
            { st with
              lineNum := n
              buf := []
              matchList := st.matchList ++ [(n, line)]
              trace := st.trace ++ [(n, line)] } rest
      else
        scanBytes pat cs
          { st with lineNum := n, buf := [], trace := st.trace ++ [(n, line)] } rest
    else
      scanBytes pat cs { st with buf := st.buf ++ [b] } rest

/-- One iteration of the outer loop: the NUL check
(`if !is_binary && bytes.contains(&0) { is_binary = true }`, i.e. a sticky
or) followed by the byte loop. -/
def scanChunk (pat : List Char) (cs : Bool) (st : ScanSt) (chunk : List Nat) : ScanSt :=
  scanBytes pat cs { st with isBinary := st.isBinary || chunk.contains 0 } chunk

/-- The outer loop: `fill_buf` yielding an empty chunk means end of
stream, so processing stops at the first empty chunk. -/
def scanChunks (pat : List Char) (cs : Bool) : ScanSt → List (List Nat) → ScanSt
  | st, [] => st
  | st, c :: rest =>
    if c = [] then st else scanChunks pat cs (scanChunk pat cs st c) rest

/-- The post-loop flush: a non-empty `line_buffer` becomes one final line;
its match is pushed regardless of the binary flag (the source's flush has
no `is_binary` test). -/
def flushFinal (pat : List Char) (cs : Bool) (st : ScanSt) : ScanSt :=
  if st.buf = [] then st
  else
    let n := st.lineNum + 1
    let line := utf8DecodeLossy st.buf
    { st with
      lineNum := n
      matchList := if line_matches line pat cs then st.matchList ++ [(n, line)] else st.matchList
      trace := st.trace ++ [(n, line)] }

structure ScanOutcome where
  matchList : List (Nat × List Char)
  binaryNotice : Bool
  trace : List (Nat × List Char)
deriving Repr, DecidableEq

def initSt : ScanSt := ⟨false, [], 0, [], []⟩

/-- The whole scan of one (already decoded/decompressed) chunked byte
stream: loop, flush, then the binary policy — `is_binary` with a
non-empty match vector prints `Binary file <key> matches` (modelled by
`binaryNotice = true`) and returns an empty vector; otherwise the match
vector is returned as is. -/
def scanStream (pat : List Char) (cs : Bool) (chunks : List (List Nat)) : ScanOutcome :=
  let st := flushFinal pat cs (scanChunks pat cs initSt chunks)
  let notice := st.isBinary && !st.matchList.isEmpty
  ⟨if notice then [] else st.matchList, notice, st.trace⟩

/-- `".gz"` suffix test (`key.ends_with(".gz")`). -/
def endsWithGz (key : List Char) : Bool := List.isSuffixOf ".gz".data key

/-- src/main.rs `search_object`: opens the object's byte stream and, when
the key ends in `.gz`, wraps it in the streaming `GzipDecoder`.  The
decoder is an external collaborator; it is modelled as a parameter
`inflate` mapping the raw chunk stream to the decompressed chunk stream.
The scan itself then runs on whichever chunk stream the reader yields. -/
def search_object (inflate : List (List Nat) → List (List Nat))
    (key pat : List Char) (cs : Bool) (raw : List (List Nat)) : ScanOutcome :=
  scanStream pat cs (if endsWithGz key then inflate raw else raw)

/-! ## Line structure of a byte stream

`splitOnLF` cuts a byte stream at every line-feed byte; it always returns
one more part than there are line-feeds (the last part is the unterminated
tail, possibly empty).  `trueLines` are the lines the spec talks about:
every terminated line, plus the unterminated tail when it is non-empty. -/

def splitOnLF : List Nat → List (List Nat)
  | [] => [[]]
  | b :: rest =>
    if b = 10 then [] :: splitOnLF rest
    else
      match splitOnLF rest with
      | [] => [[b]]
      | l :: ls => (b :: l) :: ls

/-- The lines of a byte stream in the sense of the spec. -/
def trueLines (bytes : List Nat) : List (List Nat) :=
  let parts := splitOnLF bytes
  if parts.getLastD [] = [] then parts.dropLast else parts

/-- The unterminated tail after the last line-feed. -/
def lastPart (bytes : List Nat) : List Nat :=
  bytes.foldl (fun acc b => if b = 10 then [] else acc ++ [b]) []

/-- Number a list of lines consecutively starting at `n`. -/
def numberFrom (n : Nat) : List α → List (Nat × α)
  | [] => []
  | a :: t => (n, a) :: numberFrom (n + 1) t

/-- Prepend `B` to the first part of a partition (used to state how
`splitOnLF` acts on an append whose left half is line-feed-free). -/
def consHead (B : List Nat) : List (List Nat) → List (List Nat)
  | [] => [B]
  | l :: ls => (B ++ l) :: ls

/-! ## Characterizing the byte loop -/

/-- The terminated lines of a byte stream (everything before the dangling
tail). -/
def completedParts (bytes : List Nat) : List (List Nat) := (splitOnLF bytes).dropLast

/-- Decode a list of byte lines. -/
def decLines (L : List (List Nat)) : List (List Char) := L.map utf8DecodeLossy

/-- Keep the numbered lines that satisfy the match predicate. -/
def matchFilter (pat : List Char) (cs : Bool) (L : List (Nat × List Char)) :
    List (Nat × List Char) :=
  L.filter (fun p => line_matches p.2 pat cs)

/-- The binary policy applied to the final scan state (the tail of
`search_object`). -/
def finishOutcome (st : ScanSt) : ScanOutcome :=
  ⟨if st.isBinary && !st.matchList.isEmpty then [] else st.matchList,
   st.isBinary && !st.matchList.isEmpty, st.trace⟩

/-! ## The object enumerator (src/main.rs `list_objects_stream`)

`list_objects_stream` is a `stream::unfold` whose state is an optional
continuation-token string, starting from `Some("")`; an empty token means
"send no continuation token".  On a successful response it collects the
keys (`contents().iter().filter_map(|obj| obj.key.clone())`), ends the
stream when the batch is empty and there is no next token, and otherwise
yields the batch and continues from the next token.  On a failed call it
prints `Error listing objects: {e}` with `eprintln!` directly, yields an
empty batch, and sets the state to `None`, which ends the stream on the
next pull — no `Err` item is ever constructed.  The unfold is modelled
with fuel (one unit per listing call); `finished = false` marks fuel
exhaustion (the cut-off of a non-terminating listing), `true` a stream
that ended by itself. -/

structure Page where
  contents : List (Option (List Char))
  nextToken : Option (List Char)
deriving Repr, DecidableEq

/-- The listing backend: argument is the continuation token actually sent
(`none` on the first call or when the stored token string is empty). -/
def Backend : Type := Option (List Char) → Except (List Char) Page

/-- The diagnostic `eprintln!("Error listing objects: {e}")`. -/
def errDiag (e : List Char) : List Char := "Error listing objects: ".data ++ e

deriving instance DecidableEq for Except

structure EnumResult where
  items : List (Except (List Char) (List Char))
  printed : List (List Char)
  finished : Bool
deriving Repr, DecidableEq

/-- `if !token.is_empty() { req = req.continuation_token(token) }`. -/
def sendToken (tok : List Char) : Option (List Char) :=
  if tok = [] then none else some tok

def listAux (fetch : Backend) : Nat → Option (List Char) → EnumResult
  | 0, _ => ⟨[], [], false⟩
  | _ + 1, none => ⟨[], [], true⟩
  | fuel + 1, some tok =>
    match fetch (sendToken tok) with
    | .error e =>
      let rest := listAux fetch fuel none
      ⟨rest.items, errDiag e :: rest.printed, rest.finished⟩
    | .ok page =>
      let objects := page.contents.filterMap id
      if objects.isEmpty && page.nextToken.isNone then ⟨[], [], true⟩
      else
        let rest := listAux fetch fuel page.nextToken
        ⟨objects.map Except.ok ++ rest.items, rest.printed, rest.finished⟩

/-- The stream starts from the empty token string (`Some(String::new())`).
The source checks `objects.is_empty() && next_token.is_none()` twice in a
row (the second is unreachable); the model keeps the single equivalent
check. -/
def list_objects_stream (fetch : Backend) (fuel : Nat) : EnumResult :=
  listAux fetch fuel (some [])

/-- The successfully fetched pages, in fetch order. -/
def visitedPages (fetch : Backend) : Nat → Option (List Char) → List Page
  | 0, _ => []
  | _ + 1, none => []
  | fuel + 1, some tok =>
    match fetch (sendToken tok) with
    | .error _ => []
    | .ok page =>
      if (page.contents.filterMap id).isEmpty && page.nextToken.isNone then [page]
      else page :: visitedPages fetch fuel page.nextToken

/-- The keys of a page batch. -/
def pageKeys (p : Page) : List (List Char) := p.contents.filterMap id

/-! ## Configuration (src/main.rs `Opt`) and the concurrency bound

`Opt` mirrors the `structopt` fields.  `run` reads `Opt::from_args()` and
uses every field directly: there is no validation step anywhere between
parsing and the pipeline, in particular none for `concurrent_tasks`. -/

structure Opt where
  pattern : List Char
  bucket : List Char
  pfx : List Char
  concurrent_tasks : Nat
  case_sensitive : Bool
  quiet : Bool
  line_number : Bool
deriving Repr, DecidableEq

/-- The `structopt` default for `concurrent_tasks`. -/
def defaultConcurrentTasks : Nat := 8

/-- The configuration handling of `run`: the parsed options are used as
they are — no field is checked, so every `Opt` (including
`concurrent_tasks = 0`) proceeds to the pipeline.  The only error paths
in `run` are the AWS calls. -/
def runConfigCheck (o : Opt) : Except (List Char) Opt := Except.ok o

/-- Modelled from the spec: the bounded-concurrency combinator
(`buffer_unordered(opt.concurrent_tasks)` from the external futures
library) drives at most `maxC` scanner invocations at once; a new
invocation starts only while fewer than `maxC` are in flight, and any
in-flight invocation may finish.  States count pending and in-flight
invocations. -/
structure SchedState where
  pending : Nat
  active : Nat
deriving Repr, DecidableEq

inductive SchedStep (maxC : Nat) : SchedState → SchedState → Prop
  | start (p a : Nat) : a < maxC → SchedStep maxC ⟨p + 1, a⟩ ⟨p, a + 1⟩
  | finish (p a : Nat) : SchedStep maxC ⟨p, a + 1⟩ ⟨p, a⟩

/-- Reachability from the initial state (`n` keys pending, none active). -/
def SchedReach (maxC n : Nat) (s : SchedState) : Prop :=
  Relation.ReflTransGen (SchedStep maxC) ⟨n, 0⟩ s

/-! ## The match highlighter (src/main.rs `highlight_match`)

`highlight_match` computes `line.to_lowercase().find(&pattern.to_lowercase())`
— a byte index into the lowercased line — and then slices and
`replace_range`s the original line at that byte index, with
`end = start + pattern.len()` (the byte length of the original pattern).
Byte positions are modelled faithfully: `utf8Len` is the UTF-8 width of a
scalar value, and slicing at a byte offset that is out of bounds or not a
character boundary is a Rust panic, modelled as `none`. -/

/-- UTF-8 encoded width of a scalar value. -/
def utf8Len (c : Char) : Nat :=
  if c.toNat < 0x80 then 1
  else if c.toNat < 0x800 then 2
  else if c.toNat < 0x10000 then 3
  else 4

/-- `str::len`: the UTF-8 byte length. -/
def byteLen (s : List Char) : Nat := (s.map utf8Len).sum

/-- `str::find` with a string pattern: byte offset of the first
occurrence. -/
def findSub (pat : List Char) : List Char → Option Nat
  | [] => if pat.isPrefixOf ([] : List Char) then some 0 else none
  | c :: t =>
    if pat.isPrefixOf (c :: t) then some 0
    else (findSub pat t).map (fun n => utf8Len c + n)

/-- Split a string at a byte offset; `none` when the offset is past the
end or inside a character (where Rust slicing panics). -/
def splitAtByte : List Char → Nat → Option (List Char × List Char)
  | s, 0 => some ([], s)
  | [], _ + 1 => none
  | c :: t, n + 1 =>
    if utf8Len c ≤ n + 1 then
      (splitAtByte t (n + 1 - utf8Len c)).map (fun p => (c :: p.1, p.2))
    else none

/-- `&line[a..b]`; `none` models the slicing panic. -/
def sliceBytes (s : List Char) (a b : Nat) : Option (List Char) :=
  if b < a then none
  else
    match splitAtByte s a with
    | none => none
    | some p =>
      match splitAtByte p.2 (b - a) with
      | none => none
      | some q => some q.1

/-- `String::replace_range(a..b, repl)`; `none` models the panic. -/
def replaceRange (s : List Char) (a b : Nat) (repl : List Char) :
    Option (List Char) :=
  if b < a then none
  else
    match splitAtByte s a with
    | none => none
    | some p =>
      match splitAtByte p.2 (b - a) with
      | none => none
      | some q => some (p.1 ++ repl ++ q.2)

/-- The escape sequences produced by `colored`'s `.on_yellow().black()`. -/
def hlOpen : List Char := Char.ofNat 27 :: "[30;43m".data

def hlClose : List Char := Char.ofNat 27 :: "[0m".data

def hlWrap (s : List Char) : List Char := hlOpen ++ s ++ hlClose

/-- src/main.rs `highlight_match`: always case-insensitive, independent
of the search's case mode; `none` models the panic when the byte indices
computed on the lowercased text are invalid for the original text. -/
def highlight_match (line pat : List Char) : Option (List Char) :=
  match findSub (strLower pat) (strLower line) with
  | none => some line
  | some start =>
    let e := start + byteLen pat
    match sliceBytes line start e with
    | none => none
    | some span => replaceRange line start e (hlWrap span)

/-! ## The per-item dispatch of the scheduler loop (src/main.rs `run`)

The closure mapped over the enumerator's items: an `Err` item prints a
diagnostic; an `Ok` key ending in `'/'` prints `"{key}: Is a directory"`
to the error channel and returns without calling `search_object`; any
other key is scanned and its outcome formatted.  Stderr writes go through
`print_with_target`, which prefixes `"s3grep: "`; stdout match lines are
`s3://{bucket}/{key}:[{line}:]{highlighted}` (an `Option` per line since
the highlighter can panic). -/

/-- `key.ends_with('/')`. -/
def isDirKey (key : List Char) : Bool := key.getLast? = some '/'

/-- The `"s3grep: "` prefixing of `print_with_target` on the stderr
path. -/
def stderrEmit (msg : List Char) : List Char := "s3grep: ".data ++ msg

/-- One stdout match line of the emitter. -/
def matchLine (bucket key pat : List Char) (lineNumbers : Bool)
    (m : Nat × List Char) : Option (List Char) :=
  (highlight_match m.2 pat).map (fun hl =>
    "s3://".data ++ bucket ++ "/".data ++ key ++ ":".data ++
      (if lineNumbers then (Nat.repr m.1).data ++ ":".data else []) ++ hl)

structure ItemEffect where
  scannerCalled : Bool
  stdoutLines : List (Option (List Char))
  stderrLines : List (List Char)
deriving Repr, DecidableEq

/-- The body of the closure in `run`, parameterized by the scanner's
result for the key (`scan`), which is consulted only on the scanned
path. -/
def processItem (bucket pat : List Char) (lineNumbers : Bool)
    (scan : List Char → Except (List Char) (List (Nat × List Char)))
    (item : Except (List Char) (List Char)) : ItemEffect :=
  match item with
  | .error e => ⟨false, [], [stderrEmit ("Error searching objects: ".data ++ e)]⟩
  | .ok key =>
    if isDirKey key then ⟨false, [], [stderrEmit (key ++ ": Is a directory".data)]⟩
    else
      match scan key with
      | .error e => ⟨true, [], [stderrEmit (key ++ ": ".data ++ e)]⟩
      | .ok ms => ⟨true, ms.map (matchLine bucket key pat lineNumbers), []⟩

/-! ## Concrete backends and inputs used as witnesses and
counterexamples -/

def failBackend : Backend := fun _ => .error "boom".data

def onePageBackend : Backend := fun _ => .ok ⟨[some ['k']], none⟩

def pagedBackend : Backend := fun t =>
  match t with
  | none => .ok ⟨[some "k1".data, some "k2".data], some "t1".data⟩
  | some _ => .ok ⟨[some "k3".data], none⟩

def optZero : Opt := ⟨"p".data, "b".data, [], 0, false, false, false⟩

/-- The bytes of `"ab\x00cd\nmatch line\n"` (spec scenario 4). -/
def scenario4Bytes : List Nat :=
  [97, 98, 0, 99, 100, 10, 109, 97, 116, 99, 104, 32, 108, 105, 110, 101, 10]

/-! ## Theorems -/

theorem strContains_iff (hay pat : List Char) :
    strContains hay pat = true ↔ pat <:+: hay := by
  induction hay with
  | nil =>
    simp [strContains, List.isPrefixOf_iff_prefix, List.prefix_nil, List.infix_nil]
  | cons c t ih =>
    simp only [strContains, Bool.or_eq_true, List.isPrefixOf_iff_prefix, ih,
      List.infix_cons_iff]

theorem splitOnLF_ne_nil (bytes : List Nat) : splitOnLF bytes ≠ [] := by
  cases bytes with
  | nil => simp [splitOnLF]
  | cons b rest =>
    simp only [splitOnLF]
    split
    · simp
    · split <;> simp

theorem getLastD_irrel {α : Type} (l : List α) (h : l ≠ []) (d d' : α) :
    l.getLastD d = l.getLastD d' := by
  cases l with
  | nil => exact absurd rfl h
  | cons a t =>
    cases t with
    | nil => rfl
    | cons b u => simp only [List.getLastD_cons]

theorem dropLast_cons_ne_nil {α : Type} (a : α) (t : List α) (h : t ≠ []) :
    (a :: t).dropLast = a :: t.dropLast := by
  cases t with
  | nil => exact absurd rfl h
  | cons b u => rfl

theorem splitOnLF_cons_lf (z : List Nat) : splitOnLF (10 :: z) = [] :: splitOnLF z := by
  simp [splitOnLF]

theorem splitOnLF_cons_ne (b : Nat) (z : List Nat) (hb : b ≠ 10) :
    splitOnLF (b :: z) = consHead [b] (splitOnLF z) := by
  cases h : splitOnLF z with
  | nil => exact absurd h (splitOnLF_ne_nil z)
  | cons l ls => simp [splitOnLF, hb, h, consHead]

theorem consHead_cons (B l : List Nat) (ls : List (List Nat)) :
    consHead B (l :: ls) = (B ++ l) :: ls := rfl

theorem consHead_consHead (b : Nat) (B : List Nat) (P : List (List Nat)) :
    consHead [b] (consHead B P) = consHead (b :: B) P := by
  cases P with
  | nil => rfl
  | cons l ls => simp [consHead]

theorem splitOnLF_append_nolf (B x : List Nat) (hB : 10 ∉ B) :
    splitOnLF (B ++ x) = consHead B (splitOnLF x) := by
  induction B with
  | nil =>
    cases h : splitOnLF x with
    | nil => exact absurd h (splitOnLF_ne_nil x)
    | cons l ls => simp [consHead, h]
  | cons b B ih =>
    have hb : b ≠ 10 := fun hh => hB (hh ▸ List.mem_cons_self b B)
    have hB' : 10 ∉ B := fun hh => hB (List.mem_cons_of_mem b hh)
    rw [List.cons_append, splitOnLF_cons_ne b (B ++ x) hb, ih hB',
      consHead_consHead]

theorem splitOnLF_nolf (B : List Nat) (hB : 10 ∉ B) : splitOnLF B = [B] := by
  have := splitOnLF_append_nolf B [] hB
  simpa [splitOnLF, consHead] using this

theorem mem_splitOnLF_nolf (bytes : List Nat) :
    ∀ l ∈ splitOnLF bytes, 10 ∉ l := by
  induction bytes with
  | nil =>
    intro l hl
    simp only [splitOnLF, List.mem_singleton] at hl
    subst hl
    simp
  | cons b rest ih =>
    intro l hl
    by_cases hb : b = 10
    · subst hb
      rw [splitOnLF_cons_lf] at hl
      rcases List.mem_cons.mp hl with h | h
      · simp [h]
      · exact ih l h
    · rw [splitOnLF_cons_ne b rest hb] at hl
      cases h : splitOnLF rest with
      | nil => exact absurd h (splitOnLF_ne_nil rest)
      | cons l₀ ls =>
        rw [h, consHead_cons] at hl
        rcases List.mem_cons.mp hl with h' | h'
        · subst h'
          intro hmem
          rcases List.mem_cons.mp hmem with h'' | h''
          · exact hb h''.symm
          · exact ih l₀ (h ▸ List.mem_cons_self l₀ ls) h''
        · exact ih l (h ▸ List.mem_cons_of_mem l₀ h')

/-- The fold computing `lastPart`, started from any line-feed-free
accumulator, lands on the last `splitOnLF` part. -/
theorem foldl_lastPart (r B : List Nat) (hB : 10 ∉ B) :
    List.foldl (fun acc b => if b = 10 then [] else acc ++ [b]) B r =
      (splitOnLF (B ++ r)).getLastD [] := by
  induction r generalizing B with
  | nil => simp [splitOnLF_nolf B hB]
  | cons b r ih =>
    by_cases hb : b = 10
    · subst hb
      have h1 : splitOnLF (B ++ 10 :: r) = B :: splitOnLF r := by
        rw [splitOnLF_append_nolf B (10 :: r) hB]
        have : splitOnLF (10 :: r) = [] :: splitOnLF r := by simp [splitOnLF]
        rw [this]; simp [consHead]
      rw [h1]
      simp only [List.foldl_cons, if_true, List.getLastD_cons]
      rw [ih [] (by simp)]
      simp only [List.nil_append]
      exact (getLastD_irrel _ (splitOnLF_ne_nil r) _ _)
    · have : B ++ b :: r = (B ++ [b]) ++ r := by simp
      rw [this, ← ih (B ++ [b]) (by
        intro hm
        rcases List.mem_append.mp hm with h | h
        · exact hB h
        · simp at h; exact hb h.symm)]
      simp [hb]

theorem lastPart_eq (bytes : List Nat) :
    lastPart bytes = (splitOnLF bytes).getLastD [] := by
  have := foldl_lastPart bytes [] (by simp)
  simpa [lastPart] using this

theorem lastPart_nolf (bytes : List Nat) : 10 ∉ lastPart bytes := by
  rw [lastPart_eq]
  cases h : splitOnLF bytes with
  | nil => exact absurd h (splitOnLF_ne_nil bytes)
  | cons l ls =>
    have hmem : (l :: ls).getLastD [] ∈ l :: ls := by
      rw [List.getLastD_eq_getLast?]
      rw [List.getLast?_eq_getLast (l :: ls) (by simp)]
      exact List.getLast_mem _
    exact mem_splitOnLF_nolf bytes _ (by rw [h]; exact hmem)

/-- Decomposing `splitOnLF` over an append: the completed parts of the
left half, then the partition that starts from the left half's dangling
tail. -/
theorem splitOnLF_decomp (x y : List Nat) :
    splitOnLF (x ++ y) =
      (splitOnLF x).dropLast ++ splitOnLF ((splitOnLF x).getLastD [] ++ y) := by
  induction x with
  | nil => simp [splitOnLF]
  | cons b r ih =>
    by_cases hb : b = 10
    · subst hb
      have hP := splitOnLF_ne_nil r
      rw [List.cons_append, splitOnLF_cons_lf (r ++ y), splitOnLF_cons_lf r,
        dropLast_cons_ne_nil _ _ hP, List.getLastD_cons,
        getLastD_irrel _ hP _ [], ih, List.cons_append]
    · cases hP : splitOnLF r with
      | nil => exact absurd hP (splitOnLF_ne_nil r)
      | cons l ls =>
        have hbr : splitOnLF (b :: r) = (b :: l) :: ls := by
          rw [splitOnLF_cons_ne b r hb, hP, consHead_cons, List.cons_append,
            List.nil_append]
        cases hls : ls with
        | nil =>
          subst hls
          have hl : (splitOnLF r).getLastD [] = l := by rw [hP]; rfl
          have hry : splitOnLF (r ++ y) = splitOnLF (l ++ y) := by
            rw [ih, hP]
            rw [show ([l] : List (List Nat)).dropLast = [] from rfl,
              show ([l] : List (List Nat)).getLastD [] = l from rfl,
              List.nil_append]
          have hlhs : splitOnLF (b :: r ++ y) = consHead [b] (splitOnLF (l ++ y)) := by
            rw [List.cons_append, splitOnLF_cons_ne b (r ++ y) hb, hry]
          have hrhs : splitOnLF ((b :: l) ++ y) = consHead [b] (splitOnLF (l ++ y)) := by
            rw [show (b :: l) ++ y = b :: (l ++ y) from rfl,
              splitOnLF_cons_ne b (l ++ y) hb]
          rw [hlhs, hbr]
          simp only [List.dropLast_single, List.getLastD_cons, List.nil_append]
          rw [show ([] : List (List Nat)).getLastD (b :: l) = b :: l from rfl, hrhs]
        | cons l₂ ls₂ =>
          have hlsne : ls ≠ [] := by rw [hls]; simp
          have hgl : (splitOnLF r).getLastD [] = ls.getLastD [] := by
            rw [hP, List.getLastD_cons, getLastD_irrel ls hlsne l []]
          have hry : splitOnLF (r ++ y) =
              l :: (ls.dropLast ++ splitOnLF (ls.getLastD [] ++ y)) := by
            rw [ih, hgl, hP, dropLast_cons_ne_nil _ _ hlsne, List.cons_append]
          have hlhs : splitOnLF (b :: r ++ y) =
              (b :: l) :: (ls.dropLast ++ splitOnLF (ls.getLastD [] ++ y)) := by
            rw [List.cons_append, splitOnLF_cons_ne b (r ++ y) hb, hry,
              consHead_cons, List.cons_append, List.nil_append]
          rw [hlhs, hbr, dropLast_cons_ne_nil _ _ hlsne, List.getLastD_cons,
            getLastD_irrel ls hlsne (b :: l) [], List.cons_append]

theorem numberFrom_append {α : Type} (n : Nat) (A B : List α) :
    numberFrom n (A ++ B) = numberFrom n A ++ numberFrom (n + A.length) B := by
  induction A generalizing n with
  | nil => simp [numberFrom]
  | cons a t ih =>
    have hc : (a :: t) ++ B = a :: (t ++ B) := rfl
    rw [hc, numberFrom, numberFrom, ih (n + 1), List.length_cons,
      show n + 1 + t.length = n + (t.length + 1) from by omega, List.cons_append]

theorem numberFrom_fst {α : Type} (n : Nat) (L : List α) :
    (numberFrom n L).map Prod.fst = List.range' n L.length := by
  induction L generalizing n with
  | nil => simp [numberFrom]
  | cons a t ih =>
    rw [numberFrom, List.map_cons, ih (n + 1), List.length_cons, List.range'_succ]

theorem numberFrom_length {α : Type} (n : Nat) (L : List α) :
    (numberFrom n L).length = L.length := by
  induction L generalizing n with
  | nil => rfl
  | cons a t ih => simp [numberFrom, ih]

theorem scanBytes_isBinary (pat : List Char) (cs : Bool) (bytes : List Nat) (st : ScanSt) :
    (scanBytes pat cs st bytes).isBinary = st.isBinary := by
  induction bytes generalizing st with
  | nil => rfl
  | cons b rest ih =>
    simp only [scanBytes]
    split
    · split
      · split
        · rfl
        · exact ih _
      · exact ih _
    · exact ih _

theorem completedParts_cons (buf rest : List Nat) (hbuf : 10 ∉ buf) :
    completedParts (buf ++ 10 :: rest) = buf :: completedParts rest := by
  have hsplit : splitOnLF (buf ++ 10 :: rest) = buf :: splitOnLF rest := by
    rw [splitOnLF_append_nolf _ _ hbuf, splitOnLF_cons_lf, consHead_cons,
      List.append_nil]
  rw [completedParts, hsplit, dropLast_cons_ne_nil _ _ (splitOnLF_ne_nil rest)]
  rfl

theorem lastPart_cons (buf rest : List Nat) (hbuf : 10 ∉ buf) :
    lastPart (buf ++ 10 :: rest) = lastPart rest := by
  have hsplit : splitOnLF (buf ++ 10 :: rest) = buf :: splitOnLF rest := by
    rw [splitOnLF_append_nolf _ _ hbuf, splitOnLF_cons_lf, consHead_cons,
      List.append_nil]
  rw [lastPart_eq, lastPart_eq, hsplit, List.getLastD_cons,
    getLastD_irrel _ (splitOnLF_ne_nil rest)]

/-- The main characterization of the byte loop when no `break` fires: if
the binary flag is set only while no terminated line matches (which is
exactly when the `break` is unreachable), the loop yields the dangling
tail as buffer, numbers every terminated line consecutively, and collects
the matching ones. -/
theorem scanBytes_noBreak (pat : List Char) (cs : Bool) (bytes : List Nat) (st : ScanSt)
    (hbuf : 10 ∉ st.buf)
    (H : st.isBinary = true → ∀ l ∈ completedParts (st.buf ++ bytes),
      line_matches (utf8DecodeLossy l) pat cs = false) :
    scanBytes pat cs st bytes =
      { isBinary := st.isBinary
        buf := lastPart (st.buf ++ bytes)
        lineNum := st.lineNum + (completedParts (st.buf ++ bytes)).length
        matchList := st.matchList ++ matchFilter pat cs
          (numberFrom (st.lineNum + 1) (decLines (completedParts (st.buf ++ bytes))))
        trace := st.trace ++
          numberFrom (st.lineNum + 1) (decLines (completedParts (st.buf ++ bytes))) } := by
  induction bytes generalizing st with
  | nil =>
    have h2 : splitOnLF st.buf = [st.buf] := splitOnLF_nolf _ hbuf
    have h3 : completedParts (st.buf ++ []) = [] := by
      rw [List.append_nil, completedParts, h2]; rfl
    have h4 : lastPart (st.buf ++ []) = st.buf := by
      rw [List.append_nil, lastPart_eq, h2]; rfl
    rw [scanBytes, h3, h4]
    simp [decLines, matchFilter, numberFrom]
  | cons b rest ih =>
    by_cases hb : b = 10
    · subst hb
      have hcomp := completedParts_cons st.buf rest hbuf
      have hlast := lastPart_cons st.buf rest hbuf
      cases hm : line_matches (utf8DecodeLossy st.buf) pat cs with
      | true =>
        cases hbin : st.isBinary with
        | true =>
          have := H hbin st.buf (by rw [hcomp]; exact List.mem_cons_self _ _)
          rw [hm] at this
          exact absurd this (by simp)
        | false =>
          have hstep : scanBytes pat cs st (10 :: rest) =
              scanBytes pat cs
                { st with
                  lineNum := st.lineNum + 1
                  buf := []
                  matchList := st.matchList ++ [(st.lineNum + 1, utf8DecodeLossy st.buf)]
                  trace := st.trace ++ [(st.lineNum + 1, utf8DecodeLossy st.buf)] }
                rest := by
            simp [scanBytes, hm, hbin]
          rw [hstep, ih _ (by simp) (fun hh => absurd hh (by simp [hbin]))]
          simp only [List.nil_append, hcomp, hlast, decLines, List.map_cons,
            numberFrom, matchFilter, List.filter_cons, hm, if_true,
            List.length_cons]
          congr 1
          · omega
          · simp [List.append_assoc]
          · simp [List.append_assoc]
      | false =>
        have hstep : scanBytes pat cs st (10 :: rest) =
            scanBytes pat cs
              { st with
                lineNum := st.lineNum + 1
                buf := []
                trace := st.trace ++ [(st.lineNum + 1, utf8DecodeLossy st.buf)] }
              rest := by
          simp [scanBytes, hm]
        have H₂ : st.isBinary = true →
            ∀ l ∈ completedParts (([] : List Nat) ++ rest),
              line_matches (utf8DecodeLossy l) pat cs = false := by
          intro hh l hl
          refine H hh l ?_
          rw [hcomp]
          exact List.mem_cons_of_mem _ (by simpa using hl)
        rw [hstep, ih _ (by simp) H₂]
        simp only [List.nil_append, hcomp, hlast, decLines, List.map_cons,
          numberFrom, matchFilter, List.filter_cons, hm, List.length_cons]
        congr 1
        · omega
        · simp [List.append_assoc]
    · have hassoc : st.buf ++ b :: rest = (st.buf ++ [b]) ++ rest :=
        List.append_cons _ _ _
      have hbuf' : 10 ∉ st.buf ++ [b] := by
        intro hmem
        rcases List.mem_append.mp hmem with h | h
        · exact hbuf h
        · simp at h; exact hb h.symm
      have hstep : scanBytes pat cs st (b :: rest) =
          scanBytes pat cs { st with buf := st.buf ++ [b] } rest := by
        simp [scanBytes, hb]
      have H₂ : ({ st with buf := st.buf ++ [b] } : ScanSt).isBinary = true →
          ∀ l ∈ completedParts ((st.buf ++ [b]) ++ rest),
            line_matches (utf8DecodeLossy l) pat cs = false := by
        intro hh l hl
        exact H hh l (by rw [hassoc]; exact hl)
      rw [hstep, ih _ hbuf' H₂, ← hassoc]

theorem foldl_nolf_id (B : List Nat) (hB : 10 ∉ B) :
    List.foldl (fun acc b => if b = 10 then [] else acc ++ [b]) [] B = B := by
  have h := foldl_lastPart B [] (by simp)
  rw [List.nil_append, splitOnLF_nolf B hB] at h
  exact h

/-- Restarting the `lastPart` fold from the left half's result lands
where the whole fold does. -/
theorem lastPart_append_left (x y : List Nat) :
    lastPart (x ++ y) = lastPart (lastPart x ++ y) := by
  have h1 : lastPart (x ++ y) =
      List.foldl (fun acc b => if b = 10 then [] else acc ++ [b]) (lastPart x) y := by
    rw [lastPart, List.foldl_append]
    rfl
  have h2 : lastPart (lastPart x ++ y) =
      List.foldl (fun acc b => if b = 10 then [] else acc ++ [b]) (lastPart x) y := by
    rw [lastPart, List.foldl_append, foldl_nolf_id _ (lastPart_nolf x)]
  rw [h1, h2]

theorem completedParts_append (x y : List Nat) :
    completedParts (x ++ y) = completedParts x ++ completedParts (lastPart x ++ y) := by
  unfold completedParts
  rw [splitOnLF_decomp x y, List.dropLast_append_of_ne_nil _ (splitOnLF_ne_nil _),
    lastPart_eq]

theorem numberFrom_snd_mem {α : Type} (n : Nat) (L : List α) (p : Nat × α)
    (h : p ∈ numberFrom n L) : p.2 ∈ L := by
  induction L generalizing n with
  | nil => simp [numberFrom] at h
  | cons a t ih =>
    rcases List.mem_cons.mp h with h' | h'
    · subst h'; exact List.mem_cons_self _ _
    · exact List.mem_cons_of_mem _ (ih (n + 1) h')

theorem matchFilter_eq_nil (pat : List Char) (cs : Bool) (L : List (Nat × List Char))
    (h : ∀ p ∈ L, line_matches p.2 pat cs = false) : matchFilter pat cs L = [] := by
  unfold matchFilter
  induction L with
  | nil => rfl
  | cons a t ih =>
    rw [List.filter_cons, if_neg (by simp [h a (List.mem_cons_self _ _)])]
    exact ih (fun p hp => h p (List.mem_cons_of_mem _ hp))

theorem matchFilter_append (pat : List Char) (cs : Bool) (A B : List (Nat × List Char)) :
    matchFilter pat cs (A ++ B) = matchFilter pat cs A ++ matchFilter pat cs B := by
  simp [matchFilter]

theorem matchFilter_numberFrom_nil (pat : List Char) (cs : Bool) (n : Nat)
    (CP : List (List Nat))
    (h : ∀ l ∈ CP, line_matches (utf8DecodeLossy l) pat cs = false) :
    matchFilter pat cs (numberFrom n (decLines CP)) = [] := by
  apply matchFilter_eq_nil
  intro p hp
  have h2 := numberFrom_snd_mem n _ p hp
  rcases List.mem_map.mp (by simpa [decLines] using h2) with ⟨l, hl, hpl⟩
  rw [← hpl]
  exact h l hl

/-- Splitting the completed parts of one chunk off the whole stream. -/
theorem completedParts_chunk (buf c F : List Nat) :
    completedParts (buf ++ (c ++ F)) =
      completedParts (buf ++ c) ++ completedParts (lastPart (buf ++ c) ++ F) := by
  rw [← List.append_assoc, completedParts_append]

/-- Numbered decoded lines split the same way. -/
theorem numberFrom_decLines_append (n : Nat) (A B : List (List Nat)) :
    numberFrom n (decLines (A ++ B)) =
      numberFrom n (decLines A) ++ numberFrom (n + A.length) (decLines B) := by
  rw [decLines, List.map_append, numberFrom_append, List.length_map]
  rfl

/-- Folding the outer loop over all chunks when no terminated line of the
whole stream matches: nothing is collected, no break fires, and the state
advances over the whole flattened stream (the binary flag ends up as the
disjunction of the per-chunk NUL tests). -/
theorem scanChunks_noMatch (pat : List Char) (cs : Bool) (chunks : List (List Nat))
    (st : ScanSt) (hbuf : 10 ∉ st.buf) (hne : ∀ c ∈ chunks, c ≠ [])
    (H : ∀ l ∈ completedParts (st.buf ++ chunks.flatten),
      line_matches (utf8DecodeLossy l) pat cs = false) :
    scanChunks pat cs st chunks =
      { isBinary := st.isBinary || chunks.any (fun c => c.contains 0)
        buf := lastPart (st.buf ++ chunks.flatten)
        lineNum := st.lineNum + (completedParts (st.buf ++ chunks.flatten)).length
        matchList := st.matchList
        trace := st.trace ++
          numberFrom (st.lineNum + 1)
            (decLines (completedParts (st.buf ++ chunks.flatten))) } := by
  induction chunks generalizing st with
  | nil =>
    have h2 : splitOnLF st.buf = [st.buf] := splitOnLF_nolf _ hbuf
    have h3 : completedParts (st.buf ++ List.flatten []) = [] := by
      rw [show List.flatten ([] : List (List Nat)) = [] from rfl, List.append_nil,
        completedParts, h2]
      rfl
    have h4 : lastPart (st.buf ++ List.flatten []) = st.buf := by
      rw [show List.flatten ([] : List (List Nat)) = [] from rfl, List.append_nil,
        lastPart_eq, h2]
      rfl
    rw [scanChunks, h3, h4]
    simp [decLines, numberFrom]
  | cons c chunks' ih =>
    have hcne : c ≠ [] := hne c (List.mem_cons_self _ _)
    have hflat : (c :: chunks').flatten = c ++ chunks'.flatten := rfl
    have hdec : completedParts (st.buf ++ (c :: chunks').flatten) =
        completedParts (st.buf ++ c) ++
          completedParts (lastPart (st.buf ++ c) ++ chunks'.flatten) := by
      rw [hflat, completedParts_chunk]
    have Hc : ∀ l ∈ completedParts (st.buf ++ c),
        line_matches (utf8DecodeLossy l) pat cs = false := fun l hl =>
      H l (by rw [hdec]; exact List.mem_append_left _ hl)
    have Hrest : ∀ l ∈ completedParts (lastPart (st.buf ++ c) ++ chunks'.flatten),
        line_matches (utf8DecodeLossy l) pat cs = false := fun l hl =>
      H l (by rw [hdec]; exact List.mem_append_right _ hl)
    have hstep : scanChunks pat cs st (c :: chunks') =
        scanChunks pat cs (scanChunk pat cs st c) chunks' := by
      rw [scanChunks, if_neg hcne]
    have hchunk : scanChunk pat cs st c =
        { isBinary := st.isBinary || c.contains 0
          buf := lastPart (st.buf ++ c)
          lineNum := st.lineNum + (completedParts (st.buf ++ c)).length
          matchList := st.matchList
          trace := st.trace ++
            numberFrom (st.lineNum + 1) (decLines (completedParts (st.buf ++ c))) } := by
      rw [scanChunk,
        scanBytes_noBreak pat cs c { st with isBinary := st.isBinary || c.contains 0 }
          hbuf (fun _ => Hc)]
      rw [matchFilter_numberFrom_nil pat cs _ _ Hc, List.append_nil]
    rw [hstep, hchunk,
      ih _ (lastPart_nolf (st.buf ++ c)) (fun d hd => hne d (List.mem_cons_of_mem _ hd))
        Hrest]
    dsimp only
    congr 1
    · simp [Bool.or_assoc]
    · rw [hflat, ← List.append_assoc, ← lastPart_append_left]
    · rw [hdec, List.length_append]
      omega
    · rw [hdec, numberFrom_decLines_append, ← List.append_assoc,
        show st.lineNum + (completedParts (st.buf ++ c)).length + 1 =
          st.lineNum + 1 + (completedParts (st.buf ++ c)).length from by omega]

/-- Folding the outer loop over all chunks of a NUL-free stream: the
binary flag never sets, no break can fire, every terminated line is
numbered and tested, and the matching ones are collected in order. -/
theorem scanChunks_nonbinary (pat : List Char) (cs : Bool) (chunks : List (List Nat))
    (st : ScanSt) (hbuf : 10 ∉ st.buf) (hne : ∀ c ∈ chunks, c ≠ [])
    (hbin : st.isBinary = false) (h0 : (0 : Nat) ∉ chunks.flatten) :
    scanChunks pat cs st chunks =
      { isBinary := false
        buf := lastPart (st.buf ++ chunks.flatten)
        lineNum := st.lineNum + (completedParts (st.buf ++ chunks.flatten)).length
        matchList := st.matchList ++ matchFilter pat cs
          (numberFrom (st.lineNum + 1)
            (decLines (completedParts (st.buf ++ chunks.flatten))))
        trace := st.trace ++
          numberFrom (st.lineNum + 1)
            (decLines (completedParts (st.buf ++ chunks.flatten))) } := by
  induction chunks generalizing st with
  | nil =>
    have h2 : splitOnLF st.buf = [st.buf] := splitOnLF_nolf _ hbuf
    have h3 : completedParts (st.buf ++ List.flatten []) = [] := by
      rw [show List.flatten ([] : List (List Nat)) = [] from rfl, List.append_nil,
        completedParts, h2]
      rfl
    have h4 : lastPart (st.buf ++ List.flatten []) = st.buf := by
      rw [show List.flatten ([] : List (List Nat)) = [] from rfl, List.append_nil,
        lastPart_eq, h2]
      rfl
    rw [scanChunks, h3, h4]
    simp [decLines, numberFrom, matchFilter, ← hbin]
  | cons c chunks' ih =>
    have hcne : c ≠ [] := hne c (List.mem_cons_self _ _)
    have hflat : (c :: chunks').flatten = c ++ chunks'.flatten := rfl
    have h0c : (0 : Nat) ∉ c := fun hm =>
      h0 (by rw [hflat]; exact List.mem_append_left _ hm)
    have h0' : (0 : Nat) ∉ chunks'.flatten := fun hm =>
      h0 (by rw [hflat]; exact List.mem_append_right _ hm)
    have hcont : c.contains 0 = false := by simp [h0c]
    have hdec : completedParts (st.buf ++ (c :: chunks').flatten) =
        completedParts (st.buf ++ c) ++
          completedParts (lastPart (st.buf ++ c) ++ chunks'.flatten) := by
      rw [hflat, completedParts_chunk]
    have hstep : scanChunks pat cs st (c :: chunks') =
        scanChunks pat cs (scanChunk pat cs st c) chunks' := by
      rw [scanChunks, if_neg hcne]
    have hchunk : scanChunk pat cs st c =
        { isBinary := false
          buf := lastPart (st.buf ++ c)
          lineNum := st.lineNum + (completedParts (st.buf ++ c)).length
          matchList := st.matchList ++ matchFilter pat cs
            (numberFrom (st.lineNum + 1) (decLines (completedParts (st.buf ++ c))))
          trace := st.trace ++
            numberFrom (st.lineNum + 1) (decLines (completedParts (st.buf ++ c))) } := by
      rw [scanChunk,
        scanBytes_noBreak pat cs c { st with isBinary := st.isBinary || c.contains 0 }
          hbuf (fun hh => absurd hh (by simp [hbin, h0c]))]
      dsimp only
      rw [hbin, hcont]
      rfl
    rw [hstep, hchunk,
      ih _ (lastPart_nolf (st.buf ++ c)) (fun d hd => hne d (List.mem_cons_of_mem _ hd))
        rfl h0']
    dsimp only
    congr 1
    · rw [hflat, ← List.append_assoc, ← lastPart_append_left]
    · rw [hdec, List.length_append]
      omega
    · rw [hdec, numberFrom_decLines_append, matchFilter_append, ← List.append_assoc,
        show st.lineNum + (completedParts (st.buf ++ c)).length + 1 =
          st.lineNum + 1 + (completedParts (st.buf ++ c)).length from by omega]
    · rw [hdec, numberFrom_decLines_append, ← List.append_assoc,
        show st.lineNum + (completedParts (st.buf ++ c)).length + 1 =
          st.lineNum + 1 + (completedParts (st.buf ++ c)).length from by omega]

/-- The spec's lines are the terminated lines plus the dangling tail when
it is non-empty. -/
theorem trueLines_eq (bytes : List Nat) :
    trueLines bytes = completedParts bytes ++
      (if lastPart bytes = [] then [] else [lastPart bytes]) := by
  have hdef : trueLines bytes =
      if (splitOnLF bytes).getLastD [] = [] then (splitOnLF bytes).dropLast
      else splitOnLF bytes := rfl
  rw [hdef, completedParts, ← lastPart_eq]
  by_cases h : lastPart bytes = []
  · rw [if_pos h, if_pos h, List.append_nil]
  · rw [if_neg h, if_neg h]
    have hne := splitOnLF_ne_nil bytes
    have hgl : lastPart bytes = (splitOnLF bytes).getLast hne := by
      rw [lastPart_eq, List.getLastD_eq_getLast?, List.getLast?_eq_getLast _ hne]
      rfl
    rw [hgl]
    exact (List.dropLast_append_getLast hne).symm

theorem completedParts_subset_trueLines (bytes : List Nat) (l : List Nat)
    (hl : l ∈ completedParts bytes) : l ∈ trueLines bytes := by
  rw [trueLines_eq]
  exact List.mem_append_left _ hl

theorem lastPart_mem_trueLines (bytes : List Nat) (h : lastPart bytes ≠ []) :
    lastPart bytes ∈ trueLines bytes := by
  rw [trueLines_eq, if_neg h]
  exact List.mem_append_right _ (List.mem_singleton.mpr rfl)

theorem flushFinal_isBinary (pat : List Char) (cs : Bool) (st : ScanSt) :
    (flushFinal pat cs st).isBinary = st.isBinary := by
  unfold flushFinal
  split <;> rfl

theorem scanChunks_isBinary (pat : List Char) (cs : Bool) (chunks : List (List Nat))
    (st : ScanSt) (hne : ∀ c ∈ chunks, c ≠ []) :
    (scanChunks pat cs st chunks).isBinary =
      (st.isBinary || chunks.any (fun c => c.contains 0)) := by
  induction chunks generalizing st with
  | nil => simp [scanChunks]
  | cons c chunks' ih =>
    have hcne : c ≠ [] := hne c (List.mem_cons_self _ _)
    rw [scanChunks, if_neg hcne,
      ih _ (fun d hd => hne d (List.mem_cons_of_mem _ hd))]
    rw [scanChunk, scanBytes_isBinary]
    simp [Bool.or_assoc]

/-- An empty pattern never forces a non-empty line, but a non-empty
pattern only matches non-empty lines. -/
theorem matched_line_ne_nil (line pat : List Char) (cs : Bool)
    (hm : line_matches line pat cs = true) (hp : pat ≠ []) : line ≠ [] := by
  intro hl
  subst hl
  cases cs with
  | true =>
    rw [line_matches, if_pos rfl] at hm
    rw [strContains, List.isPrefixOf_iff_prefix] at hm
    exact hp (List.prefix_nil.mp (by exact_mod_cast hm))
  | false =>
    rw [line_matches, if_neg (by simp)] at hm
    rw [show strLower [] = [] from rfl, strContains,
      List.isPrefixOf_iff_prefix] at hm
    have := List.prefix_nil.mp (by exact_mod_cast hm)
    exact hp (by simpa [strLower] using this)

theorem dec_ne_nil (l : List Nat) (h : utf8DecodeLossy l ≠ []) : l ≠ [] := by
  intro hl
  subst hl
  exact h rfl

/-- Extract the first element of a list satisfying a boolean predicate. -/
theorem exists_first_match {α : Type} (p : α → Bool) (L : List α)
    (h : ∃ x ∈ L, p x = true) :
    ∃ pre x post, L = pre ++ x :: post ∧ (∀ y ∈ pre, p y = false) ∧ p x = true := by
  induction L with
  | nil => simp at h
  | cons a t ih =>
    cases pa : p a with
    | true => exact ⟨[], a, t, rfl, by simp, pa⟩
    | false =>
      rcases h with ⟨x, hx, hpx⟩
      rcases List.mem_cons.mp hx with h' | h'
      · subst h'; rw [pa] at hpx; exact absurd hpx (by simp)
      · rcases ih ⟨x, h', hpx⟩ with ⟨pre, z, post, heq, hpre, hz⟩
        refine ⟨a :: pre, z, post, by rw [List.cons_append, heq], ?_, hz⟩
        intro y hy
        rcases List.mem_cons.mp hy with h'' | h''
        · subst h''; exact pa
        · exact hpre y h''

/-- The byte loop when the binary flag is set and a terminated line
matches: processing stops at the first matching line (`break`), the
buffer keeps that line's bytes, nothing is collected, and the skipped
remainder is neither numbered nor evaluated. -/
theorem scanBytes_break (pat : List Char) (cs : Bool) (bytes : List Nat) (st : ScanSt)
    (hbuf : 10 ∉ st.buf) (hbin : st.isBinary = true)
    (pre post : List (List Nat)) (l : List Nat)
    (hsplit : completedParts (st.buf ++ bytes) = pre ++ l :: post)
    (hpre : ∀ x ∈ pre, line_matches (utf8DecodeLossy x) pat cs = false)
    (hl : line_matches (utf8DecodeLossy l) pat cs = true) :
    scanBytes pat cs st bytes =
      { isBinary := st.isBinary
        buf := l
        lineNum := st.lineNum + pre.length + 1
        matchList := st.matchList
        trace := st.trace ++
          numberFrom (st.lineNum + 1) (decLines (pre ++ [l])) } := by
  induction bytes generalizing st pre with
  | nil =>
    have h2 : completedParts (st.buf ++ []) = [] := by
      rw [List.append_nil, completedParts, splitOnLF_nolf _ hbuf]
      rfl
    rw [h2] at hsplit
    exact absurd hsplit.symm (by simp)
  | cons b rest ih =>
    by_cases hb : b = 10
    · subst hb
      have hcomp := completedParts_cons st.buf rest hbuf
      rw [hcomp] at hsplit
      cases pre with
      | nil =>
        simp only [List.nil_append, List.cons.injEq] at hsplit
        obtain ⟨hbufl, hpost⟩ := hsplit
        subst hbufl
        have hstep : scanBytes pat cs st (10 :: rest) =
            { st with
              lineNum := st.lineNum + 1
              trace := st.trace ++ [(st.lineNum + 1, utf8DecodeLossy st.buf)] } := by
          simp [scanBytes, hl, hbin]
        rw [hstep]
        rfl
      | cons p pre' =>
        simp only [List.cons_append, List.cons.injEq] at hsplit
        obtain ⟨hbufp, hrest⟩ := hsplit
        subst hbufp
        have hnm : line_matches (utf8DecodeLossy st.buf) pat cs = false :=
          hpre st.buf (List.mem_cons_self _ _)
        have hstep : scanBytes pat cs st (10 :: rest) =
            scanBytes pat cs
              { st with
                lineNum := st.lineNum + 1
                buf := []
                trace := st.trace ++ [(st.lineNum + 1, utf8DecodeLossy st.buf)] }
              rest := by
          simp [scanBytes, hnm]
        rw [hstep]
        refine (ih { st with
              lineNum := st.lineNum + 1
              buf := []
              trace := st.trace ++ [(st.lineNum + 1, utf8DecodeLossy st.buf)] }
            (by simp) hbin pre' (by rw [List.nil_append]; exact hrest)
            (fun y hy => hpre y (List.mem_cons_of_mem _ hy))).trans ?_
        dsimp only
        congr 1
        · simp only [List.length_cons]
          omega
        · simp only [List.cons_append, decLines, List.map_cons, numberFrom,
            List.append_assoc, List.singleton_append, List.nil_append]
          rfl
    · have hassoc : st.buf ++ b :: rest = (st.buf ++ [b]) ++ rest :=
        List.append_cons _ _ _
      have hbuf' : 10 ∉ st.buf ++ [b] := by
        intro hmem
        rcases List.mem_append.mp hmem with h | h
        · exact hbuf h
        · simp at h; exact hb h.symm
      have hstep : scanBytes pat cs st (b :: rest) =
          scanBytes pat cs { st with buf := st.buf ++ [b] } rest := by
        simp [scanBytes, hb]
      rw [hstep]
      refine (ih { st with buf := st.buf ++ [b] } hbuf' hbin pre
          (by rw [← hassoc]; exact hsplit) hpre).trans ?_
      rfl

theorem scanStream_eq (pat : List Char) (cs : Bool) (chunks : List (List Nat)) :
    scanStream pat cs chunks =
      finishOutcome (flushFinal pat cs (scanChunks pat cs initSt chunks)) := rfl

theorem flushFinal_mk (pat : List Char) (cs : Bool) (bin : Bool) (buf : List Nat)
    (n : Nat) (m tr : List (Nat × List Char)) :
    flushFinal pat cs ⟨bin, buf, n, m, tr⟩ =
      if buf = [] then ⟨bin, buf, n, m, tr⟩
      else ⟨bin, buf, n + 1,
        if line_matches (utf8DecodeLossy buf) pat cs then
          m ++ [(n + 1, utf8DecodeLossy buf)] else m,
        tr ++ [(n + 1, utf8DecodeLossy buf)]⟩ := rfl

theorem finishOutcome_mk (bin : Bool) (buf : List Nat) (n : Nat)
    (m tr : List (Nat × List Char)) :
    finishOutcome ⟨bin, buf, n, m, tr⟩ =
      ⟨if bin && !m.isEmpty then [] else m, bin && !m.isEmpty, tr⟩ := rfl

/-- The whole scan of a NUL-free chunked stream: no notice, every line of
the stream numbered from 1 in the trace, and exactly the matching lines
collected. -/
theorem scanStream_nonbinary (pat : List Char) (cs : Bool) (chunks : List (List Nat))
    (hne : ∀ c ∈ chunks, c ≠ []) (h0 : (0 : Nat) ∉ chunks.flatten) :
    scanStream pat cs chunks =
      { matchList := matchFilter pat cs
          (numberFrom 1 (decLines (trueLines chunks.flatten)))
        binaryNotice := false
        trace := numberFrom 1 (decLines (trueLines chunks.flatten)) } := by
  have hfold := scanChunks_nonbinary pat cs chunks initSt (by simp [initSt]) hne rfl h0
  have hfold' : scanChunks pat cs initSt chunks =
      ⟨false, lastPart chunks.flatten,
        (completedParts chunks.flatten).length,
        matchFilter pat cs (numberFrom 1 (decLines (completedParts chunks.flatten))),
        numberFrom 1 (decLines (completedParts chunks.flatten))⟩ := by
    rw [hfold]
    congr 1 <;> simp [initSt]
  rw [scanStream_eq, hfold', flushFinal_mk]
  by_cases hlp : lastPart chunks.flatten = []
  · rw [if_pos hlp, finishOutcome_mk]
    have htrue : trueLines chunks.flatten = completedParts chunks.flatten := by
      rw [trueLines_eq, if_pos hlp, List.append_nil]
    rw [htrue]
    rfl
  · rw [if_neg hlp, finishOutcome_mk]
    have htrue : trueLines chunks.flatten =
        completedParts chunks.flatten ++ [lastPart chunks.flatten] := by
      rw [trueLines_eq, if_neg hlp]
    rw [htrue, numberFrom_decLines_append, matchFilter_append]
    simp only [Bool.false_and, Bool.false_eq_true, if_false]
    cases hm : line_matches (utf8DecodeLossy (lastPart chunks.flatten)) pat cs with
    | true =>
      simp [hm, decLines, numberFrom, matchFilter, List.filter,
        Nat.add_comm 1 (completedParts chunks.flatten).length]
    | false =>
      simp [hm, decLines, numberFrom, matchFilter, List.filter,
        Nat.add_comm 1 (completedParts chunks.flatten).length]

theorem finishOutcome_matchList_of_binary (st : ScanSt) (h : st.isBinary = true) :
    (finishOutcome st).matchList = [] := by
  unfold finishOutcome
  dsimp only
  rw [h, Bool.true_and]
  cases hm : st.matchList with
  | nil => simp
  | cons a t => simp

/-- An object whose stream contains a NUL byte never returns line
matches: either the binary notice fires and an empty vector is returned,
or nothing was collected in the first place. -/
theorem scanStream_binary_matchList (pat : List Char) (cs : Bool)
    (chunks : List (List Nat)) (hne : ∀ c ∈ chunks, c ≠ [])
    (h0 : (0 : Nat) ∈ chunks.flatten) :
    (scanStream pat cs chunks).matchList = [] := by
  have hany : chunks.any (fun c => c.contains 0) = true := by
    rcases List.mem_flatten.mp h0 with ⟨c, hc, h0c⟩
    exact List.any_eq_true.mpr ⟨c, hc, by simp [h0c]⟩
  have hbin : (flushFinal pat cs (scanChunks pat cs initSt chunks)).isBinary = true := by
    rw [flushFinal_isBinary, scanChunks_isBinary _ _ _ _ hne, hany]
    simp [initSt]
  rw [scanStream_eq]
  exact finishOutcome_matchList_of_binary _ hbin

/-- If no line of the stream matches, the scan collects nothing and no
binary notice fires — whatever the chunking and whether or not the stream
is binary. -/
theorem scanStream_noMatch (pat : List Char) (cs : Bool) (chunks : List (List Nat))
    (hne : ∀ c ∈ chunks, c ≠ [])
    (H : ∀ l ∈ trueLines chunks.flatten,
      line_matches (utf8DecodeLossy l) pat cs = false) :
    (scanStream pat cs chunks).matchList = [] ∧
      (scanStream pat cs chunks).binaryNotice = false := by
  have hfold := scanChunks_noMatch pat cs chunks initSt (by simp [initSt]) hne
    (fun l hl => H l (completedParts_subset_trueLines _ l (by simpa [initSt] using hl)))
  have hfold' : scanChunks pat cs initSt chunks =
      ⟨chunks.any (fun c => c.contains 0), lastPart chunks.flatten,
        (completedParts chunks.flatten).length, [],
        numberFrom 1 (decLines (completedParts chunks.flatten))⟩ := by
    rw [hfold]
    congr 1 <;> simp [initSt]
  rw [scanStream_eq, hfold', flushFinal_mk]
  by_cases hlp : lastPart chunks.flatten = []
  · rw [if_pos hlp, finishOutcome_mk]
    constructor <;> simp
  · have hm : line_matches (utf8DecodeLossy (lastPart chunks.flatten)) pat cs = false :=
      H _ (lastPart_mem_trueLines _ hlp)
    rw [if_neg hlp, hm, finishOutcome_mk]
    constructor <;> simp

theorem finishOutcome_notice (st : ScanSt) (h : st.isBinary = true)
    (hm : st.matchList ≠ []) : (finishOutcome st).binaryNotice = true := by
  unfold finishOutcome
  dsimp only
  rw [h]
  cases hml : st.matchList with
  | nil => exact absurd hml hm
  | cons a t => simp

/-- For a single-chunk binary stream and a non-empty pattern, the binary
notice fires exactly when some line of the object matches: either a match
was seen mid-stream (the break leaves the matched line in the buffer,
whose flush re-collects it), or the dangling final line matches at the
flush. -/
theorem scanStream_binary_single (pat : List Char) (cs : Bool) (bytes : List Nat)
    (hpat : pat ≠ []) (h0 : (0 : Nat) ∈ bytes) :
    ((scanStream pat cs [bytes]).binaryNotice = true ↔
      ∃ l ∈ trueLines bytes, line_matches (utf8DecodeLossy l) pat cs = true) := by
  have hbne : bytes ≠ [] := fun h => by subst h; simp at h0
  have hne : ∀ c ∈ [bytes], c ≠ [] := by
    intro c hc
    rw [List.mem_singleton.mp hc]
    exact hbne
  have hflat : ([bytes] : List (List Nat)).flatten = bytes := by simp
  have hcont : bytes.contains 0 = true := by simp [h0]
  have hchunks : scanChunks pat cs initSt [bytes] =
      scanBytes pat cs ⟨true, [], 0, [], []⟩ bytes := by
    rw [scanChunks, if_neg hbne, scanChunks, scanChunk]
    congr 1
    simp [initSt, hcont, h0]
  constructor
  · intro hn
    by_contra hcon
    push_neg at hcon
    have H : ∀ l ∈ trueLines bytes, line_matches (utf8DecodeLossy l) pat cs = false := by
      intro l hl
      cases h : line_matches (utf8DecodeLossy l) pat cs with
      | false => rfl
      | true => exact absurd h (hcon l hl)
    have hres := (scanStream_noMatch pat cs [bytes] hne (by rw [hflat]; exact H)).2
    rw [hres] at hn
    exact absurd hn (by simp)
  · rintro ⟨l, hl, hml⟩
    by_cases hex : ∃ x ∈ completedParts bytes,
        line_matches (utf8DecodeLossy x) pat cs = true
    · rcases exists_first_match _ _ hex with ⟨pre, x, post, hsplit, hpre, hx⟩
      have hbreak := scanBytes_break pat cs bytes ⟨true, [], 0, [], []⟩ (by simp) rfl
        pre post x (by simpa using hsplit) hpre hx
      have hxne : x ≠ [] := dec_ne_nil x (matched_line_ne_nil _ _ _ hx hpat)
      rw [scanStream_eq, hchunks, hbreak]
      apply finishOutcome_notice
      · rw [flushFinal_isBinary]
      · simp [flushFinal, hxne, hx]
    · have Hcp : ∀ x ∈ completedParts bytes,
          line_matches (utf8DecodeLossy x) pat cs = false := by
        intro x hx
        cases h : line_matches (utf8DecodeLossy x) pat cs with
        | false => rfl
        | true => exact absurd ⟨x, hx, h⟩ hex
      have hllast : l = lastPart bytes ∧ lastPart bytes ≠ [] := by
        rw [trueLines_eq] at hl
        rcases List.mem_append.mp hl with h | h
        · rw [Hcp l h] at hml
          exact absurd hml (by simp)
        · by_cases hlp : lastPart bytes = []
          · rw [if_pos hlp] at h
            simp at h
          · rw [if_neg hlp] at h
            exact ⟨List.mem_singleton.mp h, hlp⟩
      obtain ⟨hleq, hlpne⟩ := hllast
      have hml' : line_matches (utf8DecodeLossy (lastPart bytes)) pat cs = true := by
        rw [← hleq]
        exact hml
      have hnb := scanBytes_noBreak pat cs bytes ⟨true, [], 0, [], []⟩ (by simp)
        (fun _ => by simpa using Hcp)
      rw [scanStream_eq, hchunks, hnb]
      apply finishOutcome_notice
      · rw [flushFinal_isBinary]
      · simp [flushFinal, hlpne, hml']

/-- The returned match vector depends only on the bytes of the stream,
not on its chunk boundaries. -/
theorem scanStream_matchList_chunking (pat : List Char) (cs : Bool)
    (ch1 ch2 : List (List Nat)) (h1 : ∀ c ∈ ch1, c ≠ []) (h2 : ∀ c ∈ ch2, c ≠ [])
    (hflat : ch1.flatten = ch2.flatten) :
    (scanStream pat cs ch1).matchList = (scanStream pat cs ch2).matchList := by
  by_cases h0 : (0 : Nat) ∈ ch1.flatten
  · rw [scanStream_binary_matchList _ _ _ h1 h0,
      scanStream_binary_matchList _ _ _ h2 (by rw [← hflat]; exact h0)]
  · rw [scanStream_nonbinary _ _ _ h1 h0,
      scanStream_nonbinary _ _ _ h2 (by rw [← hflat]; exact h0), hflat]

/-! ## Consecutive numbering, with or without breaks -/

theorem scanBytes_trace (pat : List Char) (cs : Bool) (bytes : List Nat) (st : ScanSt) :
    ∃ ls : List (List Char),
      (scanBytes pat cs st bytes).trace = st.trace ++ numberFrom (st.lineNum + 1) ls ∧
      (scanBytes pat cs st bytes).lineNum = st.lineNum + ls.length := by
  induction bytes generalizing st with
  | nil => exact ⟨[], by simp [scanBytes, numberFrom], by simp [scanBytes]⟩
  | cons b rest ih =>
    by_cases hb : b = 10
    · subst hb
      cases hm : line_matches (utf8DecodeLossy st.buf) pat cs with
      | true =>
        cases hbin : st.isBinary with
        | true =>
          refine ⟨[utf8DecodeLossy st.buf], ?_, ?_⟩ <;>
            simp [scanBytes, hm, hbin, numberFrom]
        | false =>
          have hstep : scanBytes pat cs st (10 :: rest) =
              scanBytes pat cs
                { st with
                  lineNum := st.lineNum + 1
                  buf := []
                  matchList := st.matchList ++ [(st.lineNum + 1, utf8DecodeLossy st.buf)]
                  trace := st.trace ++ [(st.lineNum + 1, utf8DecodeLossy st.buf)] }
                rest := by
            simp [scanBytes, hm, hbin]
          rcases ih { st with
              lineNum := st.lineNum + 1
              buf := []
              matchList := st.matchList ++ [(st.lineNum + 1, utf8DecodeLossy st.buf)]
              trace := st.trace ++ [(st.lineNum + 1, utf8DecodeLossy st.buf)] } with
            ⟨ls, htr, hln⟩
          refine ⟨utf8DecodeLossy st.buf :: ls, ?_, ?_⟩
          · rw [hstep, htr]
            simp [numberFrom, List.append_assoc]
          · rw [hstep, hln]
            simp
            omega
      | false =>
        have hstep : scanBytes pat cs st (10 :: rest) =
            scanBytes pat cs
              { st with
                lineNum := st.lineNum + 1
                buf := []
                trace := st.trace ++ [(st.lineNum + 1, utf8DecodeLossy st.buf)] }
              rest := by
          simp [scanBytes, hm]
        rcases ih { st with
            lineNum := st.lineNum + 1
            buf := []
            trace := st.trace ++ [(st.lineNum + 1, utf8DecodeLossy st.buf)] } with
          ⟨ls, htr, hln⟩
        refine ⟨utf8DecodeLossy st.buf :: ls, ?_, ?_⟩
        · rw [hstep, htr]
          simp [numberFrom, List.append_assoc]
        · rw [hstep, hln]
          simp
          omega
    · have hstep : scanBytes pat cs st (b :: rest) =
          scanBytes pat cs { st with buf := st.buf ++ [b] } rest := by
        simp [scanBytes, hb]
      rcases ih { st with buf := st.buf ++ [b] } with ⟨ls, htr, hln⟩
      exact ⟨ls, by rw [hstep, htr], by rw [hstep, hln]⟩

theorem scanChunks_trace (pat : List Char) (cs : Bool) (chunks : List (List Nat))
    (st : ScanSt) :
    ∃ ls : List (List Char),
      (scanChunks pat cs st chunks).trace = st.trace ++ numberFrom (st.lineNum + 1) ls ∧
      (scanChunks pat cs st chunks).lineNum = st.lineNum + ls.length := by
  induction chunks generalizing st with
  | nil => exact ⟨[], by simp [scanChunks, numberFrom], by simp [scanChunks]⟩
  | cons c chunks' ih =>
    by_cases hc : c = []
    · exact ⟨[], by simp [scanChunks, hc, numberFrom], by simp [scanChunks, hc]⟩
    · have hstep : scanChunks pat cs st (c :: chunks') =
          scanChunks pat cs (scanChunk pat cs st c) chunks' := by
        rw [scanChunks, if_neg hc]
      rcases scanBytes_trace pat cs c
          { st with isBinary := st.isBinary || c.contains 0 } with ⟨ls₁, htr₁, hln₁⟩
      rcases ih (scanChunk pat cs st c) with ⟨ls₂, htr₂, hln₂⟩
      refine ⟨ls₁ ++ ls₂, ?_, ?_⟩
      · rw [hstep, htr₂, scanChunk, htr₁, hln₁]
        rw [numberFrom_append, List.append_assoc]
        dsimp only
        rw [show st.lineNum + ls₁.length + 1 = st.lineNum + 1 + ls₁.length from by omega]
      · rw [hstep, hln₂, scanChunk, hln₁]
        dsimp only
        rw [List.length_append]
        omega

theorem flushFinal_trace (pat : List Char) (cs : Bool) (st : ScanSt) :
    ∃ tail : List (List Char),
      (flushFinal pat cs st).trace = st.trace ++ numberFrom (st.lineNum + 1) tail := by
  unfold flushFinal
  by_cases h : st.buf = []
  · exact ⟨[], by simp [h, numberFrom]⟩
  · exact ⟨[utf8DecodeLossy st.buf], by simp [h, numberFrom]⟩

/-- Whatever the chunking, pattern and content — including binary objects
with skipped chunk remainders — the evaluated lines are numbered
1, 2, 3, … consecutively. -/
theorem scanStream_trace_consecutive (pat : List Char) (cs : Bool)
    (chunks : List (List Nat)) :
    ∃ ls : List (List Char), (scanStream pat cs chunks).trace = numberFrom 1 ls := by
  rcases scanChunks_trace pat cs chunks initSt with ⟨ls₁, htr₁, hln₁⟩
  rcases flushFinal_trace pat cs (scanChunks pat cs initSt chunks) with ⟨ls₂, htr₂⟩
  refine ⟨ls₁ ++ ls₂, ?_⟩
  rw [scanStream_eq]
  have : (finishOutcome (flushFinal pat cs (scanChunks pat cs initSt chunks))).trace =
      (flushFinal pat cs (scanChunks pat cs initSt chunks)).trace := rfl
  rw [this, htr₂, htr₁, hln₁, numberFrom_append]
  simp [initSt, List.append_assoc]
  rw [Nat.add_comm 1 ls₁.length]

/-! ## Enumerator theorems -/

theorem listAux_items (fetch : Backend) (fuel : Nat) :
    ∀ tok : Option (List Char),
      (listAux fetch fuel tok).items =
        ((visitedPages fetch fuel tok).map pageKeys).flatten.map Except.ok := by
  induction fuel with
  | zero => intro tok; rfl
  | succ fuel ih =>
    intro tok
    cases tok with
    | none => rfl
    | some t =>
      cases hf : fetch (sendToken t) with
      | error e =>
        have hnone : (listAux fetch fuel none).items = [] := by cases fuel <;> rfl
        rw [listAux, visitedPages, hf]
        dsimp only
        rw [hnone]
        rfl
      | ok page =>
        rw [listAux, visitedPages, hf]
        dsimp only
        cases hstop : ((page.contents.filterMap id).isEmpty &&
            page.nextToken.isNone) with
        | true =>
          have hkeys : pageKeys page = [] := by
            have := (Bool.and_eq_true _ _).mp hstop
            exact List.isEmpty_iff.mp this.1
          rw [if_pos rfl, if_pos rfl]
          simp [pageKeys] at hkeys
          simp [pageKeys]
          exact hkeys
        | false =>
          rw [if_neg (by simp), if_neg (by simp)]
          dsimp only
          rw [ih page.nextToken]
          simp [pageKeys]

/-- Every item the enumerator yields is an `Ok` key: the error branch
yields nothing. -/
theorem listAux_items_ok (fetch : Backend) (fuel : Nat) (tok : Option (List Char)) :
    ∀ it ∈ (listAux fetch fuel tok).items, ∃ k, it = Except.ok k := by
  intro it hit
  rw [listAux_items] at hit
  rcases List.mem_map.mp hit with ⟨k, _, hk⟩
  exact ⟨k, hk.symm⟩

/-- A response with no continuation token ends the enumeration right
after its batch is yielded — whether or not the batch is empty. -/
theorem listAux_stop_no_token (fetch : Backend) (fuel : Nat) (tok : List Char)
    (page : Page) (hf : fetch (sendToken tok) = .ok page)
    (hn : page.nextToken = none) :
    listAux fetch (fuel + 2) (some tok) =
      ⟨(pageKeys page).map Except.ok, [], true⟩ := by
  rw [listAux, hf]
  dsimp only
  cases hstop : ((page.contents.filterMap id).isEmpty && page.nextToken.isNone) with
  | true =>
    have hkeys : pageKeys page = [] := by
      have := (Bool.and_eq_true _ _).mp hstop
      exact List.isEmpty_iff.mp this.1
    rw [if_pos rfl, show (pageKeys page).map Except.ok = [] by rw [hkeys]; rfl]
  | false =>
    rw [if_neg (by simp), hn,
      show listAux fetch (fuel + 1) none = ⟨[], [], true⟩ from rfl]
    simp [pageKeys]

/-- A failed listing call prints one diagnostic, yields nothing further
(in particular no error item), and ends the stream; the rest of the
backend is never consulted again. -/
theorem listAux_error (fetch : Backend) (fuel : Nat) (tok : List Char) (e : List Char)
    (hf : fetch (sendToken tok) = .error e) :
    listAux fetch (fuel + 2) (some tok) = ⟨[], [errDiag e], true⟩ := by
  rw [listAux, hf]
  dsimp only
  rw [show listAux fetch (fuel + 1) none = ⟨[], [], true⟩ from rfl]

/-! ## Scheduler invariant -/

theorem schedReach_active_le (maxC n : Nat) (s : SchedState)
    (h : SchedReach maxC n s) : s.active ≤ maxC := by
  induction h with
  | refl => simp
  | tail hr hstep ih =>
    cases hstep with
    | start p a hlt => exact hlt
    | finish p a => simp at ih ⊢; omega

/-! ## Claim theorems -/

/-- C1 (amended): an object whose byte stream contains a NUL byte never
returns LineMatch values; the binary notice fires iff the collected match
vector is non-empty.  When no line of the object would match, the outcome
is always the empty-matches outcome without a notice; and for a non-empty
pattern on a stream delivered in a single chunk, the notice fires iff at
least one line of the object would have matched.  (As literally stated —
a notice whenever any line would have matched — the claim fails for the
empty pattern; see the counterexample.) -/
theorem C1_binary_policy (pat : List Char) (cs : Bool) :
    (∀ chunks : List (List Nat), (∀ c ∈ chunks, c ≠ []) →
      (0 : Nat) ∈ chunks.flatten → (scanStream pat cs chunks).matchList = []) ∧
    (∀ chunks : List (List Nat), (∀ c ∈ chunks, c ≠ []) →
      (∀ l ∈ trueLines chunks.flatten,
        line_matches (utf8DecodeLossy l) pat cs = false) →
      (scanStream pat cs chunks).matchList = [] ∧
        (scanStream pat cs chunks).binaryNotice = false) ∧
    (∀ bytes : List Nat, pat ≠ [] → (0 : Nat) ∈ bytes →
      ((scanStream pat cs [bytes]).binaryNotice = true ↔
        ∃ l ∈ trueLines bytes, line_matches (utf8DecodeLossy l) pat cs = true)) :=
  ⟨fun chunks hne h0 => scanStream_binary_matchList pat cs chunks hne h0,
   fun chunks hne H => scanStream_noMatch pat cs chunks hne H,
   fun bytes hp h0 => scanStream_binary_single pat cs bytes hp h0⟩

/-- C1 counterexample: the object `"\n\x00"` with the empty pattern.  The
stream contains a NUL and its first line — the empty line — matches the
pattern, yet the scan returns the empty-matches outcome and no binary
notice: the matching empty line breaks out of the loop leaving an empty
buffer, so nothing reaches the final flush and the match vector stays
empty. -/
theorem C1_counterexample :
    (0 : Nat) ∈ ([10, 0] : List Nat) ∧
    (∃ l ∈ trueLines [10, 0],
      line_matches (utf8DecodeLossy l) ([] : List Char) false = true) ∧
    (scanStream ([] : List Char) false [[10, 0]]).binaryNotice = false ∧
    (scanStream ([] : List Char) false [[10, 0]]).matchList = [] := by
  decide

/-- C1 witness: spec scenario 4 under the amended statement. -/
theorem C1_witness :
    (scanStream "match".data true [scenario4Bytes]).matchList = [] ∧
    (scanStream "match".data true [scenario4Bytes]).binaryNotice = true :=
  ⟨(C1_binary_policy "match".data true).1 [scenario4Bytes] (by decide) (by decide),
   ((C1_binary_policy "match".data true).2.2 scenario4Bytes (by decide)
     (by decide)).mpr (by decide)⟩

/-- C2: the match predicate is literal substring containment in
case-sensitive mode, and containment of the lowercased pattern in the
lowercased line in case-insensitive mode; hence a case-insensitive match
is invariant under changing the case of line and pattern, and a
case-sensitive match holds exactly for literal containment. -/
theorem C2_match_predicate (line pat : List Char) :
    (line_matches line pat true = true ↔ pat <:+: line) ∧
    (line_matches line pat false = true ↔ strLower pat <:+: strLower line) ∧
    (∀ line' pat', strLower line' = strLower line → strLower pat' = strLower pat →
      line_matches line' pat' false = line_matches line pat false) := by
  refine ⟨?_, ?_, ?_⟩
  · rw [line_matches, if_pos rfl]
    exact strContains_iff line pat
  · rw [line_matches, if_neg (by simp)]
    exact strContains_iff _ _
  · intro line' pat' hl hp
    rw [line_matches, line_matches, if_neg (by simp), if_neg (by simp), hl, hp]

/-- C2 witness. -/
theorem C2_witness :
    line_matches "Xa".data "A".data false = line_matches "xA".data "a".data false :=
  (C2_match_predicate "xA".data "a".data).2.2 "Xa".data "A".data (by decide) (by decide)

/-- C3 (amended): the line numbers assigned during any scan are exactly
1, 2, 3, … in order (strictly increasing, no gaps); for every NUL-free
object every line-feed byte increments the counter and the non-empty
final line without a terminator is flushed, numbered and evaluated like
the others — the trace is exactly the object's lines numbered from 1.
(As literally stated — one increment per line-feed byte and the true
final line always flushed — the claim fails once a matching line on a
binary-flagged object makes the loop skip the rest of a chunk; see the
counterexample.) -/
theorem C3_line_numbering (pat : List Char) (cs : Bool) (chunks : List (List Nat)) :
    ((scanStream pat cs chunks).trace.map Prod.fst =
      List.range' 1 (scanStream pat cs chunks).trace.length) ∧
    ((∀ c ∈ chunks, c ≠ []) → (0 : Nat) ∉ chunks.flatten →
      (scanStream pat cs chunks).trace =
        numberFrom 1 (decLines (trueLines chunks.flatten))) := by
  constructor
  · rcases scanStream_trace_consecutive pat cs chunks with ⟨ls, hls⟩
    rw [hls, numberFrom_fst, numberFrom_length]
  · intro hne h0
    rw [scanStream_nonbinary pat cs chunks hne h0]

/-- C3 counterexample: the binary object `"\x00a\na\nb"` with pattern
`"a"` in one chunk: the first line matches while the binary flag is set,
so the second line-feed byte and the true final line `"b"` are skipped —
only 2 lines are numbered and evaluated although the object has 3, and
the flushed final line is the stale buffer, not `"b"`. -/
theorem C3_counterexample :
    (scanStream ['a'] true [[0, 97, 10, 97, 10, 98]]).trace ≠
      numberFrom 1 (decLines (trueLines [0, 97, 10, 97, 10, 98])) ∧
    (scanStream ['a'] true [[0, 97, 10, 97, 10, 98]]).trace.length = 2 ∧
    (trueLines [0, 97, 10, 97, 10, 98]).length = 3 := by
  decide

/-- C3 witness: spec scenario 1 content `"foo\nBAR\nbaz\n"` split across
two chunks. -/
theorem C3_witness :
    (scanStream "bar".data false
        [[102, 111, 111, 10], [66, 65, 82, 10, 98, 97, 122, 10]]).trace =
      numberFrom 1 (decLines (trueLines
        (([[102, 111, 111, 10], [66, 65, 82, 10, 98, 97, 122, 10]] :
          List (List Nat)).flatten))) :=
  (C3_line_numbering "bar".data false _).2 (by decide) (by decide)

/-- C4 (amended): a listing-call failure prints one diagnostic line
directly from inside the enumerator and ends the sequence: no item — in
particular no error item — is yielded to the consumer for it, the call is
not retried and no cursor is resumed.  Every item the stream ever yields
is an `Ok` key. -/
theorem C4_listing_failure (fetch : Backend) (fuel : Nat) (tok : List Char) :
    (∀ e, fetch (sendToken tok) = .error e →
      listAux fetch (fuel + 2) (some tok) = ⟨[], [errDiag e], true⟩) ∧
    (∀ it ∈ (listAux fetch fuel (some tok)).items, ∃ k, it = Except.ok k) :=
  ⟨fun e hf => listAux_error fetch fuel tok e hf,
   listAux_items_ok fetch fuel (some tok)⟩

/-- C4 counterexample: a backend whose first call fails.  The stream ends
having yielded zero items — not the one terminal error item the claim
requires; the diagnostic is printed by the enumerator itself. -/
theorem C4_counterexample :
    (list_objects_stream failBackend 5).items = [] ∧
    (list_objects_stream failBackend 5).printed = [errDiag "boom".data] ∧
    (list_objects_stream failBackend 5).finished = true := by
  decide

/-- C4 witness. -/
theorem C4_witness :
    listAux failBackend (3 + 2) (some []) = ⟨[], [errDiag "boom".data], true⟩ :=
  (C4_listing_failure failBackend 3 []).1 "boom".data rfl

/-- C5 (amended): no ConfigurationError exists — `run` performs no
validation of the parsed options, so a request with
`concurrent_tasks = 0` proceeds unchanged to the pipeline; the default is
8; the bounded-concurrency combinator holds at most `maxConcurrency`
invocations active at every reachable state, and with a bound of 0 no
invocation ever becomes active (the pipeline stalls rather than raising
an error). -/
theorem C5_concurrency :
    (∀ o : Opt, runConfigCheck o = Except.ok o) ∧
    defaultConcurrentTasks = 8 ∧
    (∀ (maxC n : Nat) (s : SchedState), SchedReach maxC n s → s.active ≤ maxC) ∧
    (∀ (n : Nat) (s : SchedState), SchedReach 0 n s → s.active = 0) :=
  ⟨fun _ => rfl, rfl, fun maxC n s h => schedReach_active_le maxC n s h,
   fun n s h => Nat.le_zero.mp (schedReach_active_le 0 n s h)⟩

/-- C5 counterexample: `concurrent_tasks = 0` is accepted — there is no
rejection path, so no fatal ConfigurationError is surfaced before
scanning. -/
theorem C5_counterexample :
    runConfigCheck optZero = Except.ok optZero ∧ optZero.concurrent_tasks = 0 :=
  ⟨rfl, rfl⟩

/-- C5 witness: a state with one active invocation reached under the
default bound. -/
theorem C5_witness : ({ pending := 1, active := 1 } : SchedState).active ≤ 8 :=
  C5_concurrency.2.2.1 8 2 ⟨1, 1⟩
    (Relation.ReflTransGen.single (SchedStep.start 1 0 (by decide)))

/-- C6 (amended): the keys yielded by the enumerator are exactly the
concatenation, in fetch order, of the key batches of all successfully
fetched pages — no drops and no duplications beyond the batches
themselves, regardless of empty-with-continuation pages; and enumeration
terminates as soon as a response carries no next cursor (yielding that
response's batch first), the empty-batch-with-no-cursor response being
the special case that yields nothing.  (As literally stated —
termination *exactly* on an empty batch with no cursor — the claim fails:
a non-empty final batch without a cursor also terminates; see the
counterexample.) -/
theorem C6_enumeration (fetch : Backend) (fuel : Nat) :
    (∀ tok : Option (List Char),
      (listAux fetch fuel tok).items =
        ((visitedPages fetch fuel tok).map pageKeys).flatten.map Except.ok) ∧
    (∀ (t : List Char) (page : Page), fetch (sendToken t) = .ok page →
      page.nextToken = none →
      listAux fetch (fuel + 2) (some t) =
        ⟨(pageKeys page).map Except.ok, [], true⟩) :=
  ⟨listAux_items fetch fuel,
   fun t page hf hn => listAux_stop_no_token fetch fuel t page hf hn⟩

/-- C6 counterexample: a backend returning one page with batch `["k"]`
and no cursor: the enumeration terminates although no response had both
an empty batch and no cursor. -/
theorem C6_counterexample :
    (list_objects_stream onePageBackend 3).finished = true ∧
    (list_objects_stream onePageBackend 3).items = [Except.ok ['k']] ∧
    (∀ p ∈ visitedPages onePageBackend 3 (some []),
      ¬(pageKeys p = [] ∧ p.nextToken = none)) := by
  decide

/-- C6 witness: spec scenario 3, pages `[["k1","k2"],["k3"]]` with tokens
`t1, none`. -/
theorem C6_witness :
    (listAux pagedBackend 5 (some [])).items =
      ((visitedPages pagedBackend 5 (some [])).map pageKeys).flatten.map Except.ok ∧
    listAux pagedBackend (3 + 2) (some "t1".data) =
      ⟨(pageKeys ⟨[some "k3".data], none⟩).map Except.ok, [], true⟩ :=
  ⟨(C6_enumeration pagedBackend 5).1 (some []),
   (C6_enumeration pagedBackend 3).2 "t1".data ⟨[some "k3".data], none⟩ rfl rfl⟩

/-- C7: a key with the `.gz` suffix routes the raw byte stream through
the streaming decompressor, and the LineMatch vector (numbers and texts)
of the scan equals that of scanning the equivalent uncompressed bytes —
whatever chunk boundaries either stream is delivered with. -/
theorem C7_gz_equivalence (inflate : List (List Nat) → List (List Nat))
    (key pat : List Char) (cs : Bool) (raw plain : List (List Nat))
    (hgz : endsWithGz key = true)
    (h1 : ∀ c ∈ inflate raw, c ≠ []) (h2 : ∀ c ∈ plain, c ≠ [])
    (hbytes : (inflate raw).flatten = plain.flatten) :
    (search_object inflate key pat cs raw).matchList =
      (scanStream pat cs plain).matchList := by
  rw [search_object, if_pos hgz]
  exact scanStream_matchList_chunking pat cs (inflate raw) plain h1 h2 hbytes

/-- C7 witness: a `.gz` key whose decompressed stream is `"a\n"`,
compared against the same bytes delivered uncompressed in two chunks. -/
theorem C7_witness :
    (search_object (fun _ => [[97, 10]]) ".gz".data ['a'] true [[5]]).matchList =
      (scanStream ['a'] true [[97], [10]]).matchList :=
  C7_gz_equivalence (fun _ => [[97, 10]]) ".gz".data ['a'] true [[5]] [[97], [10]]
    (by decide) (by decide) (by decide) (by decide)

/-- C8 (code bug): `highlight_match` finds the pattern at a byte index of
the lowercased line but slices the original line at that index.  On the
matched line `"Ⱥa"` (U+023A lowercases to U+2C65, one UTF-8 byte longer)
with pattern `"a"`, `find` returns byte 3 of the lowercase text, and
`&line[3..4]` is out of bounds of the 3-byte original — the function
panics instead of returning the line with its first occurrence
highlighted. -/
theorem C8_highlight_bug :
    line_matches [Char.ofNat 0x23A, 'a'] ['a'] false = true ∧
    highlight_match [Char.ofNat 0x23A, 'a'] ['a'] = none := by
  decide

/-- C9: an enumerated key ending in `'/'` is never passed to the scanner
— the effect does not consult the scanner at all — and is always reported
with exactly one `"{key}: Is a directory"` diagnostic on the error
channel. -/
theorem C9_container_keys (bucket pat : List Char) (ln : Bool)
    (scan : List Char → Except (List Char) (List (Nat × List Char)))
    (key : List Char) (h : isDirKey key = true) :
    processItem bucket pat ln scan (Except.ok key) =
      ⟨false, [], [stderrEmit (key ++ ": Is a directory".data)]⟩ := by
  simp [processItem, h]

/-- C9 witness. -/
theorem C9_witness :
    processItem "b".data "p".data false (fun _ => Except.ok [])
        (Except.ok "dir/".data) =
      ⟨false, [], [stderrEmit ("dir/".data ++ ": Is a directory".data)]⟩ :=
  C9_container_keys "b".data "p".data false (fun _ => Except.ok []) "dir/".data
    (by decide)

/-- C10: the empty pattern matches every line in both case modes, and a
search with the empty pattern on a NUL-free object reports every line of
the object. -/
theorem C10_empty_pattern :
    (∀ (line : List Char) (cs : Bool), line_matches line [] cs = true) ∧
    (∀ (cs : Bool) (chunks : List (List Nat)), (∀ c ∈ chunks, c ≠ []) →
      (0 : Nat) ∉ chunks.flatten →
      (scanStream [] cs chunks).matchList =
        numberFrom 1 (decLines (trueLines chunks.flatten))) := by
  have hall : ∀ (line : List Char) (cs : Bool), line_matches line [] cs = true := by
    intro line cs
    cases cs with
    | true =>
      rw [line_matches, if_pos rfl]
      exact (strContains_iff line []).mpr List.nil_infix
    | false =>
      rw [line_matches, if_neg (by simp)]
      exact (strContains_iff _ _).mpr
        (by rw [show strLower [] = [] from rfl]; exact List.nil_infix)
  refine ⟨hall, ?_⟩
  intro cs chunks hne h0
  rw [scanStream_nonbinary [] cs chunks hne h0]
  dsimp only
  rw [matchFilter]
  apply List.filter_eq_self.mpr
  intro p hp
  simp [hall p.2 cs]

/-- C10 witness. -/
theorem C10_witness :
    line_matches "abc".data [] true = true ∧
    (scanStream [] false [[97, 10]]).matchList =
      numberFrom 1 (decLines (trueLines (([[97, 10]] : List (List Nat)).flatten))) :=
  ⟨C10_empty_pattern.1 "abc".data true,
   C10_empty_pattern.2 false [[97, 10]] (by decide) (by decide)⟩

end S3Grep

